import Mathlib

/-!
Shallow embedding of `check_mount.py` (the check-mount plugin): the mount-line
parsers (`LinuxMount.process_mount_line`, `BSDMount.process_mount_line`), the
listing splitter (`Mount.process_mount_data`), the selection engine
(`Mount.probe`) and the constructor validation (`Mount.__init__`).

Python strings are embedded as `List Char`; a Python dict that is either empty
or carries the four mount fields is embedded as `Option MountDetail` (`none`
is the empty dict `{}` produced for a line that does not match the grammar).
Code that can raise (`KeyError` on a dict access) is embedded in `Option`.
-/

/-- One mount record: the four fields `process_mount_line` stores in its
`detail` dict when the regex matches. -/
structure MountDetail where
  source : List Char
  target : List Char
  filesystem_type : List Char
  options : List (List Char)
deriving DecidableEq, Repr

/-- `nagiosplugin.Metric` as used by `Mount.probe`: a name and an integer
value (the values produced are 0, 1 or a running count, all naturals). -/
structure Metric where
  name : List Char
  value : Nat
deriving DecidableEq, Repr

/-- The module-level `IGNORE_TYPES` list of `check_mount.py`. -/
def IGNORE_TYPES : List (List Char) :=
  ["autofs".data, "bpf".data, "cgroup".data, "cgroup2".data, "debugfs".data,
   "devpts".data, "devtmpfs".data, "hugetlbfs".data, "mqueue".data,
   "proc".data, "pstore".data, "securityfs".data, "sysfs".data, "tmpfs".data]

/-- ASCII case folding of one character: models Python `str.lower` on the
ASCII inputs this program handles. -/
def lowerChar (c : Char) : Char :=
  if 'A' ≤ c ∧ c ≤ 'Z' then Char.ofNat (c.toNat + 32) else c

/-- Python `str.lower` on an ASCII string. -/
def lowerStr (s : List Char) : List Char := s.map lowerChar

/-- All ways of writing `s` as `a ++ sep ++ b`, as the list of pairs
`(a, b)` in order of increasing length of `a`.  This enumerates the
candidate split points a backtracking regex engine tries for a pattern
`(.+)sep...`; the engine's greedy choice is the last valid entry. -/
def splitsOn (sep : List Char) : List Char → List (List Char × List Char)
  | [] => []
  | c :: rest =>
    let tailSplits := (splitsOn sep rest).map (fun p => (c :: p.1, p.2))
    if sep.isPrefixOf (c :: rest) then
      ([], (c :: rest).drop sep.length) :: tailSplits
    else
      tailSplits

/-- Whether `sub` occurs as a contiguous substring of `s`. -/
def containsSub (sub : List Char) : List Char → Bool
  | [] => sub.isEmpty
  | c :: rest => sub.isPrefixOf (c :: rest) || containsSub sub rest

/-- Python `str.split(', ')`: split at every non-overlapping occurrence of
comma-space, scanning left to right.  Used on the parenthesised group of a
mount line. -/
def splitCS : List Char → List (List Char)
  | ',' :: ' ' :: rest => [] :: splitCS rest
  | c :: rest =>
    match splitCS rest with
    | [] => [[c]]
    | g :: gs => (c :: g) :: gs
  | [] => [[]]

/-- Inverse serialisation of `splitCS`: join with comma-space (`', '.join`). -/
def joinCS : List (List Char) → List Char
  | [] => []
  | [o] => o
  | o :: rest => o ++ ", ".data ++ joinCS rest

/-- Split a text on the platform line separator (`os.linesep`, which is a
single newline on the Linux/FreeBSD/Darwin platforms the program supports),
as Python `str.split` does: every occurrence separates, empty pieces kept. -/
def splitNL : List Char → List (List Char)
  | '\n' :: rest => [] :: splitNL rest
  | c :: rest =>
    match splitNL rest with
    | [] => [[c]]
    | g :: gs => (c :: g) :: gs
  | [] => [[]]

/-- Python `str.isspace` characters in the ASCII range, for `str.strip()`. -/
def isPySpace (c : Char) : Bool :=
  c == ' ' || c == '\t' || c == '\n' || c == '\r' || c == '\x0b' || c == '\x0c'

/-- Python `str.strip()`: drop leading and trailing whitespace. -/
def pyStrip (s : List Char) : List Char :=
  ((s.dropWhile isPySpace).reverse.dropWhile isPySpace).reverse

/-- Python `$` in an unanchored-by-newline pattern may match just before one
final newline: strip that single trailing newline before decomposing. -/
def stripNL (s : List Char) : List Char :=
  if s.getLast? = some '\n' then s.dropLast else s

/-- Match the pattern fragment `(.*)\)$` against `r`: succeeds when `r` ends
with a closing parenthesis, returning the (newline-free) body before it. -/
def matchParenTail (r : List Char) : Option (List Char) :=
  if r.getLast? = some ')' ∧ '\n' ∉ r.dropLast then some r.dropLast else none

/-- Match the fragment `(.+) \((.*)\)$` against `r` with greedy (Perl)
semantics: group 1 takes the rightmost ` (` split whose remainder still ends
in `)`.  Returns the two groups. -/
def matchTailBSD (r : List Char) : Option (List Char × List Char) :=
  (splitsOn " (".data r).reverse.findSome? fun p =>
    if p.1 = [] ∨ '\n' ∈ p.1 then none
    else (matchParenTail p.2).map fun d => (p.1, d)

/-- Match the fragment `(.+) type (.+) \((.*)\)$` against `r` greedily:
group 1 takes the rightmost ` type ` split whose remainder still matches
`(.+) \((.*)\)$`.  Returns the three groups. -/
def matchTailLinux (r : List Char) : Option (List Char × List Char × List Char) :=
  (splitsOn " type ".data r).reverse.findSome? fun p =>
    if p.1 = [] ∨ '\n' ∈ p.1 then none
    else (matchTailBSD p.2).map fun bd => (p.1, bd.1, bd.2)

/-- `re.search(r"^(.+) on (.+) \((.*)\)$", t)`: greedy decomposition of `t`
into the three groups of the BSD grammar. -/
def bsdMatch (t : List Char) : Option (List Char × List Char × List Char) :=
  (splitsOn " on ".data (stripNL t)).reverse.findSome? fun p =>
    if p.1 = [] ∨ '\n' ∈ p.1 then none
    else (matchTailBSD p.2).map fun bd => (p.1, bd.1, bd.2)

/-- `re.search(r"^(.+) on (.+) type (.+) \((.*)\)$", t)`: greedy
decomposition of `t` into the four groups of the Linux grammar. -/
def linuxMatch (t : List Char) :
    Option (List Char × List Char × List Char × List Char) :=
  (splitsOn " on ".data (stripNL t)).reverse.findSome? fun p =>
    if p.1 = [] ∨ '\n' ∈ p.1 then none
    else (matchTailLinux p.2).map fun bcd => (p.1, bcd.1, bcd.2.1, bcd.2.2)

/-- `BSDMount.process_mount_line`: on a regex match, group 1 is the source,
group 2 the target, and group 3 is split on comma-space with the first token
popped off as the filesystem type and the rest kept as options.  On no match
the empty dict is returned (embedded as `none`). -/
def BSDMount.processMountLine (text : List Char) : Option MountDetail :=
  match bsdMatch text with
  | some (a, b, g3) =>
    let opts := splitCS g3
    some ⟨a, b, opts.headD [], opts.tail⟩
  | none => none

/-- `LinuxMount.process_mount_line`: on a regex match, group 1 is the source,
group 2 the target, group 3 the filesystem type, and group 4 is split on
comma-space as the options.  On no match the empty dict is returned. -/
def LinuxMount.processMountLine (text : List Char) : Option MountDetail :=
  match linuxMatch text with
  | some (a, b, c, g4) => some ⟨a, b, c, splitCS g4⟩
  | none => none

/-- `Mount.process_mount_data`: split the captured text into lines, strip
each, skip blank lines, and append the per-line parse result — including the
empty dict a non-matching line produces — to the snapshot. -/
def processMountData (parseLine : List Char → Option MountDetail)
    (text : List Char) : List (Option MountDetail) :=
  ((splitNL text).map pyStrip).filterMap fun l =>
    if l = [] then none else some (parseLine l)

/-- The list comprehension `[mount['target'] for mount in mount_data]` in
`Mount.probe`: raises `KeyError` (embedded as `none`) if any record is the
empty dict. -/
def allTargets : List (Option MountDetail) → Option (List (List Char))
  | [] => some []
  | none :: _ => none
  | some m :: rest => (allTargets rest).map (m.target :: ·)

/-- The counting loop of `Mount.probe` (type-counting mode), parameterised by
the ignore list it reads (the code reads the global `IGNORE_TYPES`).  For
each record: with a non-empty filter, count it iff its type is in the filter,
otherwise skip it; with no filter, skip it iff its type is in the ignore
list.  Accessing a field of the empty dict raises (`none`). -/
def countMounts (ignore types : List (List Char)) :
    List (Option MountDetail) → Nat → Option Nat
  | [], acc => some acc
  | none :: _, _ => none
  | some m :: rest, acc =>
    if types ≠ [] then
      if m.filesystem_type ∈ types then countMounts ignore types rest (acc + 1)
      else countMounts ignore types rest acc
    else
      if m.filesystem_type ∈ ignore then countMounts ignore types rest acc
      else countMounts ignore types rest (acc + 1)

/-- `Mount.probe` on an already-parsed snapshot: path-presence mode when
`paths` is non-empty (one metric per requested path, in request order, value
1 iff some record's target equals the path), otherwise type-counting mode
(one metric named `total mounts`).  An uncaught `KeyError` is `none`. -/
def Mount.probe (paths types : List (List Char))
    (mount_data : List (Option MountDetail)) : Option (List Metric) :=
  if paths ≠ [] then
    match allTargets mount_data with
    | none => none
    | some targets =>
      some (paths.map fun p => ⟨p, if p ∈ targets then 1 else 0⟩)
  else
    match countMounts IGNORE_TYPES types mount_data 0 with
    | none => none
    | some n => some [⟨"total mounts".data, n⟩]

/-- `Mount.__init__`: raises `ValueError` (embedded as `none`) when both
`paths` and `types` are non-empty; otherwise stores `paths` as given and
`types` lowercased.  A `None` argument is embedded as `[]`, which the code
also normalises to `[]`. -/
def Mount.init (paths types : List (List Char)) :
    Option (List (List Char) × List (List Char)) :=
  if paths ≠ [] ∧ types ≠ [] then none
  else some (paths, types.map lowerStr)

/-- Serialise four fields into the Linux grammar
`SOURCE on TARGET type FSTYPE (OPTIONS)`, options joined by comma-space. -/
def encodeLinux (S T F : List Char) (opts : List (List Char)) : List Char :=
  S ++ " on ".data ++ T ++ " type ".data ++ F ++ " (".data ++ joinCS opts ++ [')']

/-- Serialise fields into the BSD grammar `SOURCE on TARGET (FSTYPE, OPTS...)`:
the filesystem type is the first comma-separated token in the parentheses. -/
def encodeBSD (S T F : List Char) (opts : List (List Char)) : List Char :=
  S ++ " on ".data ++ T ++ " (".data ++ joinCS (F :: opts) ++ [')']

/-- Well-formed fields for a Linux-grammar line: the grammar of spec section
4.1 together with the section-9 caveat — source, target and type non-empty,
at least one option token, no newlines, no comma-space inside an option
token, and no occurrence of an anchor token (` on `, ` type `, ` (`) after
its intended position in the serialised line. -/
abbrev wfLinuxLine (S T F : List Char) (opts : List (List Char)) : Prop :=
  S ≠ [] ∧ T ≠ [] ∧ F ≠ [] ∧ opts ≠ [] ∧
  '\n' ∉ S ∧ '\n' ∉ T ∧ '\n' ∉ F ∧
  (∀ o ∈ opts, '\n' ∉ o ∧ containsSub ", ".data o = false) ∧
  containsSub " on ".data
    ("on ".data ++ (T ++ " type ".data ++ (F ++ " (".data ++
      (joinCS opts ++ [')'])))) = false ∧
  containsSub " type ".data
    ("type ".data ++ (F ++ " (".data ++ (joinCS opts ++ [')']))) = false ∧
  containsSub " (".data ("(".data ++ (joinCS opts ++ [')'])) = false

/-- Well-formed fields for a BSD-grammar line, analogously: source and
target non-empty, no newlines, no comma-space inside the type or an option
token, and no late occurrence of ` on ` or ` (`. -/
abbrev wfBSDLine (S T F : List Char) (opts : List (List Char)) : Prop :=
  S ≠ [] ∧ T ≠ [] ∧ '\n' ∉ S ∧ '\n' ∉ T ∧
  (∀ o ∈ F :: opts, '\n' ∉ o ∧ containsSub ", ".data o = false) ∧
  containsSub " on ".data
    ("on ".data ++ (T ++ " (".data ++ (joinCS (F :: opts) ++ [')']))) = false ∧
  containsSub " (".data ("(".data ++ (joinCS (F :: opts) ++ [')'])) = false

/-- Declarative reading of the Linux pattern: after stripping one trailing
newline the line splits into four newline-free groups around the literal
anchors ` on `, ` type `, ` (` and a final `)`, the first three groups
non-empty. -/
def LinuxShape (t : List Char) : Prop :=
  ∃ S T F O, stripNL t =
      S ++ " on ".data ++ T ++ " type ".data ++ F ++ " (".data ++ O ++ [')'] ∧
    S ≠ [] ∧ T ≠ [] ∧ F ≠ [] ∧ '\n' ∉ S ∧ '\n' ∉ T ∧ '\n' ∉ F ∧ '\n' ∉ O

/-- Declarative reading of the BSD pattern, with three groups around ` on `,
` (` and a final `)`. -/
def BSDShape (t : List Char) : Prop :=
  ∃ S T O, stripNL t = S ++ " on ".data ++ T ++ " (".data ++ O ++ [')'] ∧
    S ≠ [] ∧ T ≠ [] ∧ '\n' ∉ S ∧ '\n' ∉ T ∧ '\n' ∉ O

/-- Helper for concrete snapshots: a record with empty options. -/
def mkRec (src tgt fs : String) : MountDetail := ⟨src.data, tgt.data, fs.data, []⟩

/-- The snapshot of the spec's no-filter counting example:
2 ext4, 1 tmpfs, 1 proc, 1 nfs. -/
def snapNoFilter : List MountDetail :=
  [mkRec "/dev/sda1" "/" "ext4", mkRec "/dev/sda2" "/home" "ext4",
   mkRec "tmpfs" "/run" "tmpfs", mkRec "proc" "/proc" "proc",
   mkRec "host:/export" "/mnt" "nfs"]

/-- The snapshot of the spec's filtered counting example:
2 nfs, 1 ext4, 1 tmpfs, 1 proc. -/
def snapFilter : List MountDetail :=
  [mkRec "h:/a" "/m1" "nfs", mkRec "h:/b" "/m2" "nfs",
   mkRec "/dev/sda1" "/" "ext4", mkRec "tmpfs" "/run" "tmpfs",
   mkRec "proc" "/proc" "proc"]

/-- The snapshot of the spec's path-presence example: targets `/home` and
`/var` present, `/missing` absent. -/
def snapPaths : List MountDetail :=
  [mkRec "/dev/sda2" "/home" "ext4", mkRec "/dev/sda3" "/var" "ext4"]

/-- A record whose filesystem type is reported in upper case, as the Linux
grammar permits (`group(3)` is stored unnormalised). -/
def recUpperNFS : MountDetail := ⟨"host:/x".data, "/m".data, "NFS".data, []⟩

/-- Listing text whose first line does not match the Linux grammar and whose
second line does. -/
def mixedText : List Char :=
  "garbage header line\n/dev/sda1 on / type ext4 (rw,relatime)".data

theorem allTargets_map_some (snap : List MountDetail) :
    allTargets (snap.map some) = some (snap.map MountDetail.target) := by
  induction snap with
  | nil => rfl
  | cons m rest ih => simp [allTargets, ih]

theorem countMounts_filter (ign types : List (List Char)) (h : types ≠ [])
    (snap : List MountDetail) : ∀ acc : Nat,
    countMounts ign types (snap.map some) acc =
      some (acc + snap.countP fun m => decide (m.filesystem_type ∈ types)) := by
  induction snap with
  | nil => intro acc; simp [countMounts]
  | cons m rest ih =>
    intro acc
    by_cases hm : m.filesystem_type ∈ types
    · simp [countMounts, h, hm, ih, List.countP_cons]; omega
    · simp [countMounts, h, hm, ih, List.countP_cons]

theorem countMounts_noFilter (ign : List (List Char))
    (snap : List MountDetail) : ∀ acc : Nat,
    countMounts ign [] (snap.map some) acc =
      some (acc + snap.countP fun m => !decide (m.filesystem_type ∈ ign)) := by
  induction snap with
  | nil => intro acc; simp [countMounts]
  | cons m rest ih =>
    intro acc
    by_cases hm : m.filesystem_type ∈ ign
    · simp [countMounts, hm, ih, List.countP_cons]
    · simp [countMounts, hm, ih, List.countP_cons]; omega

theorem countMounts_ignore_free (ign ign' types : List (List Char))
    (h : types ≠ []) : ∀ (data : List (Option MountDetail)) (acc : Nat),
    countMounts ign types data acc = countMounts ign' types data acc := by
  intro data
  induction data with
  | nil => intro acc; rfl
  | cons o rest ih =>
    intro acc
    match o with
    | none => rfl
    | some m =>
      by_cases hm : m.filesystem_type ∈ types
      · simp [countMounts, h, hm, ih]
      · simp [countMounts, h, hm, ih]

/-- C1: the claim says a non-blank line that fails to match the grammar is
excluded from the snapshot (snapshot length = input lines − blank lines −
mismatched lines) and contributes to no metric.  The code instead appends
the empty dict the parser returns for such a line: on a two-line text with
one mismatched line the snapshot has length 2, not 1, and the retained
empty record makes `probe` raise `KeyError` instead of emitting metrics. -/
theorem c1_mismatched_line_kept_in_snapshot :
    processMountData LinuxMount.processMountLine mixedText =
      [none, some ⟨"/dev/sda1".data, "/".data, "ext4".data, ["rw,relatime".data]⟩] ∧
    (processMountData LinuxMount.processMountLine mixedText).length = 2 ∧
    Mount.probe [] [] (processMountData LinuxMount.processMountLine mixedText) =
      none := by
  refine ⟨by decide, by decide, by decide⟩

/-- C9: the claim says the selection engine raises no errors on every
snapshot the parser produces from arbitrary listing text.  The parser
produces `[{}]` (an empty record) from the text `garbage`, and `probe`
then raises `KeyError` on that snapshot in path mode and in both counting
modes (embedded as `none`). -/
theorem c9_probe_raises_on_parser_output :
    processMountData LinuxMount.processMountLine "garbage".data = [none] ∧
    Mount.probe ["/home".data] [] [none] = none ∧
    Mount.probe [] [] [none] = none ∧
    Mount.probe [] ["nfs".data] [none] = none := by
  refine ⟨by decide, by decide, by decide, by decide⟩

/-- C3 counterexample: with filter `["NFS"]` (stored lowercased by
`Mount.__init__`) and a record whose `filesystem_type` is `NFS`, the type is
case-insensitively a member of the filter, yet the count is not incremented:
the code compares the unnormalised record type against the lowercased
filter, so the match is not case-insensitive on the record side. -/
theorem c3_uppercase_type_not_counted :
    lowerStr "NFS".data ∈ ["NFS".data].map lowerStr ∧
    Mount.init [] ["NFS".data] = some ([], ["nfs".data]) ∧
    Mount.probe [] ["nfs".data] [some recUpperNFS] =
      some [⟨"total mounts".data, 0⟩] := by
  refine ⟨by decide, by decide, by decide⟩

/-- C3 (amended): in type-counting mode with a non-empty explicit filter, as
stored by `Mount.__init__` (lowercased), a record increments the count iff
its `filesystem_type` is literally a member of the lowercased filter set —
case-insensitive in the filter argument only, not in the record's type. -/
theorem c3_filter_membership_counts (types : List (List Char))
    (snap : List MountDetail) (h : types ≠ []) :
    Mount.probe [] (types.map lowerStr) (snap.map some) =
      some [⟨"total mounts".data,
        snap.countP fun m => decide (m.filesystem_type ∈ types.map lowerStr)⟩] := by
  have hl : types.map lowerStr ≠ [] := by
    intro hx
    exact h (List.map_eq_nil_iff.mp hx)
  simp [Mount.probe, countMounts_filter IGNORE_TYPES (types.map lowerStr) hl snap 0]

/-- C3 witness: the amended theorem applied to the filter `["nfs"]` and a
one-record `nfs` snapshot, which is counted. -/
theorem c3_filter_membership_counts_witness :
    Mount.probe [] (["nfs".data].map lowerStr) ([mkRec "h:/a" "/m1" "nfs"].map some) =
      some [⟨"total mounts".data, 1⟩] := by
  have h := c3_filter_membership_counts ["nfs".data] [mkRec "h:/a" "/m1" "nfs"]
    (by decide)
  rw [h]
  decide

/-- C4: in type-counting mode with no explicit filter, every record counts
unless its `filesystem_type` is in the fixed `IGNORE_TYPES` list (open-world
counting), and the spec's example snapshot (2 ext4, 1 tmpfs, 1 proc, 1 nfs)
yields the metric `total mounts = 3`. -/
theorem c4_no_filter_ignore_policy :
    (∀ snap : List MountDetail,
      Mount.probe [] [] (snap.map some) =
        some [⟨"total mounts".data,
          snap.countP fun m => !decide (m.filesystem_type ∈ IGNORE_TYPES)⟩]) ∧
    Mount.probe [] [] (snapNoFilter.map some) =
      some [⟨"total mounts".data, 3⟩] := by
  constructor
  · intro snap
    simp [Mount.probe, countMounts_noFilter IGNORE_TYPES snap 0]
  · decide

/-- C5: in type-counting mode with a non-empty explicit filter the ignore
list is never consulted (`countMounts` does not depend on it), a record
counts iff its type is in the filter (others are skipped entirely), and the
spec's example (filter nfs+ext4 against 2 nfs, 1 ext4, 1 tmpfs, 1 proc)
yields `total mounts = 3`. -/
theorem c5_filter_authoritative :
    (∀ types : List (List Char), types ≠ [] →
      (∀ (ign ign' : List (List Char)) (data : List (Option MountDetail))
        (acc : Nat),
        countMounts ign types data acc = countMounts ign' types data acc) ∧
      (∀ snap : List MountDetail,
        Mount.probe [] types (snap.map some) =
          some [⟨"total mounts".data,
            snap.countP fun m => decide (m.filesystem_type ∈ types)⟩])) ∧
    Mount.probe [] ["nfs".data, "ext4".data] (snapFilter.map some) =
      some [⟨"total mounts".data, 3⟩] := by
  constructor
  · intro types h
    constructor
    · intro ign ign' data acc
      exact countMounts_ignore_free ign ign' types h data acc
    · intro snap
      simp [Mount.probe, countMounts_filter IGNORE_TYPES types h snap 0]
  · decide

/-- C5 witness: the general part applied to the concrete filter
`["nfs", "ext4"]` and the example snapshot. -/
theorem c5_filter_authoritative_witness :
    countMounts [] ["nfs".data, "ext4".data] (snapFilter.map some) 0 =
      countMounts IGNORE_TYPES ["nfs".data, "ext4".data] (snapFilter.map some) 0 ∧
    Mount.probe [] ["nfs".data, "ext4".data] (snapFilter.map some) =
      some [⟨"total mounts".data, 3⟩] := by
  have h := c5_filter_authoritative.1 ["nfs".data, "ext4".data] (by decide)
  exact ⟨h.1 [] IGNORE_TYPES (snapFilter.map some) 0,
    by rw [h.2 snapFilter]; decide⟩

/-- C6: in path-presence mode (non-empty `paths`), one metric is emitted per
requested path, named by that exact path, in request order, with value 1 iff
some record's `target` equals the path by exact string equality, and the
spec's example (`/home`, `/var`, `/missing`) yields `1, 1, 0` in order. -/
theorem c6_path_presence_metrics :
    (∀ (paths types : List (List Char)) (snap : List MountDetail),
      paths ≠ [] →
      Mount.probe paths types (snap.map some) =
        some (paths.map fun p =>
          ⟨p, if p ∈ snap.map MountDetail.target then 1 else 0⟩)) ∧
    Mount.probe ["/home".data, "/var".data, "/missing".data] []
        (snapPaths.map some) =
      some [⟨"/home".data, 1⟩, ⟨"/var".data, 1⟩, ⟨"/missing".data, 0⟩] := by
  constructor
  · intro paths types snap h
    simp [Mount.probe, h, allTargets_map_some snap]
  · decide

/-- C6 witness: the general part applied to the spec's example paths and
snapshot. -/
theorem c6_path_presence_metrics_witness :
    Mount.probe ["/home".data, "/var".data, "/missing".data] []
        (snapPaths.map some) =
      some (["/home".data, "/var".data, "/missing".data].map fun p =>
        ⟨p, if p ∈ snapPaths.map MountDetail.target then 1 else 0⟩) := by
  have h := c6_path_presence_metrics.1
    ["/home".data, "/var".data, "/missing".data] [] snapPaths (by decide)
  exact h

/-- C7: two records with the same target but different sources both count in
type-counting mode (each line is one record; stated for types the no-filter
mode counts), while in path-presence mode they collapse to a single metric
of value 1 for that target. -/
theorem c7_duplicate_targets (r1 r2 : MountDetail)
    (ht : r1.target = r2.target) (hs : r1.source ≠ r2.source)
    (h1 : r1.filesystem_type ∉ IGNORE_TYPES)
    (h2 : r2.filesystem_type ∉ IGNORE_TYPES) :
    Mount.probe [] [] [some r1, some r2] =
      some [⟨"total mounts".data, 2⟩] ∧
    Mount.probe [r1.target] [] [some r1, some r2] =
      some [⟨r1.target, 1⟩] := by
  constructor
  · simp [Mount.probe, countMounts, h1, h2]
  · simp [Mount.probe, allTargets]

/-- C7 witness: two concrete ext4 records sharing the target `/shared`. -/
theorem c7_duplicate_targets_witness :
    Mount.probe [] []
        [some (mkRec "/dev/sda1" "/shared" "ext4"),
         some (mkRec "/dev/sdb1" "/shared" "ext4")] =
      some [⟨"total mounts".data, 2⟩] ∧
    Mount.probe [(mkRec "/dev/sda1" "/shared" "ext4").target] []
        [some (mkRec "/dev/sda1" "/shared" "ext4"),
         some (mkRec "/dev/sdb1" "/shared" "ext4")] =
      some [⟨(mkRec "/dev/sda1" "/shared" "ext4").target, 1⟩] :=
  c7_duplicate_targets (mkRec "/dev/sda1" "/shared" "ext4")
    (mkRec "/dev/sdb1" "/shared" "ext4") (by decide) (by decide)
    (by decide) (by decide)

/-- C8: configuring both `paths` and `types` non-empty is rejected by
`Mount.__init__` (`ValueError`, embedded as `none`) before any selection
runs, and any successfully constructed state has at most one of the two
non-empty, so the selection engine is never invoked with both set. -/
theorem c8_paths_types_mutually_exclusive :
    (∀ paths types : List (List Char), paths ≠ [] → types ≠ [] →
      Mount.init paths types = none) ∧
    (∀ (paths types p' t' : List (List Char)),
      Mount.init paths types = some (p', t') → p' = [] ∨ t' = []) := by
  constructor
  · intro paths types h1 h2
    simp [Mount.init, h1, h2]
  · intro paths types p' t' h
    by_cases hb : paths ≠ [] ∧ types ≠ []
    · simp [Mount.init, hb] at h
    · rcases not_and_or.mp hb with hp | ht
      · left
        simp only [Mount.init, if_neg hb, Option.some.injEq, Prod.mk.injEq] at h
        rw [← h.1]
        exact not_not.mp hp
      · right
        simp only [Mount.init, if_neg hb, Option.some.injEq, Prod.mk.injEq] at h
        rw [← h.2]
        have : types = [] := not_not.mp ht
        simp [this]

/-- C8 witness: the concrete configuration with both `paths` and `types`
set is rejected. -/
theorem c8_paths_types_mutually_exclusive_witness :
    Mount.init ["/home".data] ["nfs".data] = none :=
  c8_paths_types_mutually_exclusive.1 ["/home".data] ["nfs".data]
    (by decide) (by decide)

theorem splitsOn_cons (sep : List Char) (c : Char) (rest : List Char) :
    splitsOn sep (c :: rest) =
      if sep.isPrefixOf (c :: rest) then
        ([], (c :: rest).drop sep.length) ::
          (splitsOn sep rest).map (fun p => (c :: p.1, p.2))
      else (splitsOn sep rest).map (fun p => (c :: p.1, p.2)) := rfl

theorem containsSub_cons (sub : List Char) (c : Char) (rest : List Char) :
    containsSub sub (c :: rest) =
      (sub.isPrefixOf (c :: rest) || containsSub sub rest) := rfl

theorem containsSub_false_splitsOn (sep s : List Char)
    (h : containsSub sep s = false) : splitsOn sep s = [] := by
  induction s with
  | nil => rfl
  | cons c rest ih =>
    rw [containsSub_cons, Bool.or_eq_false_iff] at h
    rw [splitsOn_cons, if_neg (by rw [h.1]; exact Bool.false_ne_true), ih h.2]
    rfl

theorem splitsOn_concat_last (sh : Char) (st S R : List Char)
    (h : containsSub (sh :: st) (st ++ R) = false) :
    ∃ l', splitsOn (sh :: st) (S ++ (sh :: st) ++ R) = l' ++ [(S, R)] := by
  induction S with
  | nil =>
    refine ⟨[], ?_⟩
    have hpre : (sh :: st).isPrefixOf (sh :: (st ++ R)) = true := by
      rw [List.isPrefixOf_iff_prefix]
      exact List.prefix_append (sh :: st) R
    have hrec : splitsOn (sh :: st) (st ++ R) = [] :=
      containsSub_false_splitsOn _ _ h
    show splitsOn (sh :: st) (sh :: (st ++ R)) = [([], R)]
    rw [splitsOn_cons, if_pos hpre, hrec]
    show [([], List.drop st.length (st ++ R))] = [([], R)]
    rw [List.drop_left]
  | cons c S' ih =>
    obtain ⟨l', hl⟩ := ih
    show (∃ l', splitsOn (sh :: st) (c :: (S' ++ (sh :: st) ++ R)) =
      l' ++ [(c :: S', R)])
    rw [splitsOn_cons, hl, List.map_append]
    simp only [List.map_cons, List.map_nil]
    by_cases hp : (sh :: st).isPrefixOf (c :: (S' ++ (sh :: st) ++ R)) = true
    · rw [if_pos hp, ← List.cons_append]
      exact ⟨_, rfl⟩
    · rw [if_neg hp]
      exact ⟨_, rfl⟩

theorem splitsOn_sound (sep s a b : List Char)
    (h : (a, b) ∈ splitsOn sep s) : s = a ++ sep ++ b := by
  induction s generalizing a b with
  | nil => simp [splitsOn] at h
  | cons c rest ih =>
    rw [splitsOn_cons] at h
    by_cases hp : sep.isPrefixOf (c :: rest) = true
    · rw [if_pos hp] at h
      rcases List.mem_cons.mp h with h1 | h1
      · have ha : a = [] := (Prod.mk.injEq .. ▸ h1.symm).1.symm
        have hb : b = (c :: rest).drop sep.length :=
          (Prod.mk.injEq .. ▸ h1.symm).2.symm
        subst ha
        subst hb
        have := List.prefix_iff_eq_append.mp (List.isPrefixOf_iff_prefix.mp hp)
        rw [List.nil_append]
        exact this.symm
      · obtain ⟨⟨a', b'⟩, hmem, heq⟩ := List.mem_map.mp h1
        have ha : a = c :: a' := (Prod.mk.injEq .. ▸ heq).1.symm
        have hb : b = b' := (Prod.mk.injEq .. ▸ heq).2.symm
        subst ha
        subst hb
        rw [ih _ _ hmem]
        rfl
    · rw [if_neg hp] at h
      obtain ⟨⟨a', b'⟩, hmem, heq⟩ := List.mem_map.mp h
      have ha : a = c :: a' := (Prod.mk.injEq .. ▸ heq).1.symm
      have hb : b = b' := (Prod.mk.injEq .. ▸ heq).2.symm
      subst ha
      subst hb
      rw [ih _ _ hmem]
      rfl

theorem splitsOn_complete (sh : Char) (st a b : List Char) :
    (a, b) ∈ splitsOn (sh :: st) (a ++ (sh :: st) ++ b) := by
  induction a with
  | nil =>
    show (([], b) : List Char × List Char) ∈ splitsOn (sh :: st) (sh :: (st ++ b))
    have hpre : (sh :: st).isPrefixOf (sh :: (st ++ b)) = true := by
      rw [List.isPrefixOf_iff_prefix]
      exact List.prefix_append (sh :: st) b
    rw [splitsOn_cons, if_pos hpre]
    have hd : (sh :: (st ++ b)).drop (sh :: st).length = b := by
      show (st ++ b).drop st.length = b
      exact List.drop_left st b
    rw [hd]
    exact List.mem_cons_self _ _
  | cons c a' ih =>
    show ((c :: a', b) : List Char × List Char) ∈
      splitsOn (sh :: st) (c :: (a' ++ (sh :: st) ++ b))
    have hmap : ((c :: a', b) : List Char × List Char) ∈
        (splitsOn (sh :: st) (a' ++ (sh :: st) ++ b)).map
          (fun p => (c :: p.1, p.2)) :=
      List.mem_map.mpr ⟨(a', b), ih, rfl⟩
    rw [splitsOn_cons]
    by_cases hp : (sh :: st).isPrefixOf (c :: (a' ++ (sh :: st) ++ b)) = true
    · rw [if_pos hp]
      exact List.mem_cons_of_mem _ hmap
    · rw [if_neg hp]
      exact hmap

theorem joinCS_cons2 (o o2 : List Char) (rest : List (List Char)) :
    joinCS (o :: o2 :: rest) = o ++ ", ".data ++ joinCS (o2 :: rest) := rfl

theorem nl_not_mem_joinCS (opts : List (List Char))
    (h : ∀ o ∈ opts, '\n' ∉ o) : '\n' ∉ joinCS opts := by
  induction opts with
  | nil => simp [joinCS]
  | cons o rest ih =>
    cases rest with
    | nil => simpa [joinCS] using h o (List.mem_cons_self o [])
    | cons o2 rest2 =>
      rw [joinCS_cons2]
      intro hmem
      rcases List.mem_append.mp hmem with h1 | h1
      · rcases List.mem_append.mp h1 with h2 | h2
        · exact h o (List.mem_cons_self o _) h2
        · exact absurd h2 (by decide)
      · exact ih (fun x hx => h x (List.mem_cons_of_mem o hx)) h1

theorem stripNL_ne_newline (t : List Char) (h : t.getLast? ≠ some '\n') :
    stripNL t = t := by
  rw [stripNL, if_neg h]

theorem matchParenTail_concat (d : List Char) (hd : '\n' ∉ d) :
    matchParenTail (d ++ [')']) = some d := by
  rw [matchParenTail, if_pos]
  · rw [List.dropLast_concat]
  · rw [List.getLast?_concat, List.dropLast_concat]
    exact ⟨rfl, hd⟩

theorem matchTailBSD_encode (F O : List Char) (hF : F ≠ []) (hFn : '\n' ∉ F)
    (hOn : '\n' ∉ O)
    (h : containsSub " (".data ("(".data ++ (O ++ [')'])) = false) :
    matchTailBSD (F ++ " (".data ++ (O ++ [')'])) = some (F, O) := by
  obtain ⟨l', hl⟩ := splitsOn_concat_last ' ' "(".data F (O ++ [')']) h
  have hl' : splitsOn " (".data (F ++ " (".data ++ (O ++ [')'])) =
      l' ++ [(F, O ++ [')'])] := hl
  simp only [matchTailBSD]
  rw [hl', List.reverse_concat, List.findSome?_cons]
  simp [hF, hFn, matchParenTail_concat O hOn]

theorem matchTailLinux_encode (T F O : List Char) (hT : T ≠ [])
    (hTn : '\n' ∉ T) (hF : F ≠ []) (hFn : '\n' ∉ F) (hOn : '\n' ∉ O)
    (hHt : containsSub " type ".data
      ("type ".data ++ (F ++ " (".data ++ (O ++ [')']))) = false)
    (hHp : containsSub " (".data ("(".data ++ (O ++ [')'])) = false) :
    matchTailLinux (T ++ " type ".data ++ (F ++ " (".data ++ (O ++ [')']))) =
      some (T, F, O) := by
  obtain ⟨l', hl⟩ := splitsOn_concat_last ' ' "type ".data T
    (F ++ " (".data ++ (O ++ [')'])) hHt
  have hl' : splitsOn " type ".data
      (T ++ " type ".data ++ (F ++ " (".data ++ (O ++ [')']))) =
      l' ++ [(T, F ++ " (".data ++ (O ++ [')']))] := hl
  simp only [matchTailLinux]
  rw [hl', List.reverse_concat, List.findSome?_cons]
  have hB := matchTailBSD_encode F O hF hFn hOn hHp
  simp at hB
  simp [hT, hTn, hB]

theorem splitCS_cons_ne (c : Char) (rest : List Char)
    (h : ¬(c = ',' ∧ rest.head? = some ' ')) :
    splitCS (c :: rest) = match splitCS rest with
      | [] => [[c]]
      | g :: gs => (c :: g) :: gs := by
  rw [splitCS.eq_def]
  split
  · rename_i r heq
    injection heq with h1 h2
    subst h1
    exact absurd ⟨rfl, by rw [h2]; rfl⟩ h
  · rename_i c2 rest2 hno heq
    injection heq with h1 h2
    subst h1
    subst h2
    rfl
  · rename_i heq
    exact absurd heq (by simp)

theorem splitCS_no_sep (o : List Char)
    (h : containsSub ", ".data o = false) : splitCS o = [o] := by
  induction o with
  | nil => rfl
  | cons c o' ih =>
    rw [containsSub_cons, Bool.or_eq_false_iff] at h
    have hne : ¬(c = ',' ∧ o'.head? = some ' ') := by
      rintro ⟨hc, ho⟩
      subst hc
      cases o' with
      | nil => simp at ho
      | cons c2 o'' =>
        rw [List.head?_cons, Option.some.injEq] at ho
        subst ho
        simp [List.isPrefixOf] at h
    rw [splitCS_cons_ne c o' hne, ih h.2]

theorem splitCS_append_sep (o s : List Char)
    (h : containsSub ", ".data o = false) :
    splitCS (o ++ ',' :: ' ' :: s) = o :: splitCS s := by
  induction o with
  | nil => rfl
  | cons c o' ih =>
    rw [containsSub_cons, Bool.or_eq_false_iff] at h
    have hne : ¬(c = ',' ∧ (o' ++ ',' :: ' ' :: s).head? = some ' ') := by
      rintro ⟨hc, ho⟩
      subst hc
      cases o' with
      | nil =>
        simp at ho
      | cons c2 o'' =>
        rw [List.cons_append, List.head?_cons, Option.some.injEq] at ho
        subst ho
        simp [List.isPrefixOf] at h
    rw [List.cons_append, splitCS_cons_ne c (o' ++ ',' :: ' ' :: s) hne, ih h.2]

theorem splitCS_joinCS (opts : List (List Char)) (hne : opts ≠ [])
    (h : ∀ o ∈ opts, containsSub ", ".data o = false) :
    splitCS (joinCS opts) = opts := by
  induction opts with
  | nil => exact absurd rfl hne
  | cons o rest ih =>
    cases rest with
    | nil => exact splitCS_no_sep o (h o (List.mem_cons_self o []))
    | cons o2 rest2 =>
      rw [joinCS_cons2]
      have hsh : o ++ ", ".data ++ joinCS (o2 :: rest2) =
          o ++ ',' :: ' ' :: joinCS (o2 :: rest2) := by
        rw [List.append_assoc]
        rfl
      rw [hsh, splitCS_append_sep o _ (h o (List.mem_cons_self o _)),
        ih (by simp) (fun x hx => h x (List.mem_cons_of_mem o hx))]

theorem linuxMatch_encodeLinux (S T F : List Char) (opts : List (List Char))
    (hS : S ≠ []) (hSn : '\n' ∉ S) (hT : T ≠ []) (hTn : '\n' ∉ T)
    (hF : F ≠ []) (hFn : '\n' ∉ F) (hOn : '\n' ∉ joinCS opts)
    (hHo : containsSub " on ".data
      ("on ".data ++ (T ++ " type ".data ++ (F ++ " (".data ++
        (joinCS opts ++ [')'])))) = false)
    (hHt : containsSub " type ".data
      ("type ".data ++ (F ++ " (".data ++ (joinCS opts ++ [')']))) = false)
    (hHp : containsSub " (".data
      ("(".data ++ (joinCS opts ++ [')'])) = false) :
    linuxMatch (encodeLinux S T F opts) = some (S, T, F, joinCS opts) := by
  have hstrip : stripNL (encodeLinux S T F opts) = encodeLinux S T F opts := by
    apply stripNL_ne_newline
    show (S ++ " on ".data ++ T ++ " type ".data ++ F ++ " (".data ++
      joinCS opts ++ [')']).getLast? ≠ some '\n'
    rw [List.getLast?_concat]
    decide
  obtain ⟨l', hl⟩ := splitsOn_concat_last ' ' "on ".data S
    (T ++ " type ".data ++ (F ++ " (".data ++ (joinCS opts ++ [')']))) hHo
  have hl' : splitsOn " on ".data
      ((S ++ " on ".data) ++
        (T ++ " type ".data ++ (F ++ " (".data ++ (joinCS opts ++ [')'])))) =
      l' ++ [(S, T ++ " type ".data ++
        (F ++ " (".data ++ (joinCS opts ++ [')'])))] := hl
  have hline : encodeLinux S T F opts =
      (S ++ " on ".data) ++
        (T ++ " type ".data ++ (F ++ " (".data ++ (joinCS opts ++ [')']))) := by
    simp [encodeLinux, List.append_assoc]
  unfold linuxMatch
  rw [hstrip, hline, hl']
  rw [List.reverse_concat, List.findSome?_cons]
  have hTL := matchTailLinux_encode T F (joinCS opts) hT hTn hF hFn hOn hHt hHp
  simp at hTL
  simp [hS, hSn, hTL]

theorem bsdMatch_encodeBSD (S T F : List Char) (opts : List (List Char))
    (hS : S ≠ []) (hSn : '\n' ∉ S) (hT : T ≠ []) (hTn : '\n' ∉ T)
    (hPn : '\n' ∉ joinCS (F :: opts))
    (hHo : containsSub " on ".data
      ("on ".data ++ (T ++ " (".data ++ (joinCS (F :: opts) ++ [')']))) = false)
    (hHp : containsSub " (".data
      ("(".data ++ (joinCS (F :: opts) ++ [')'])) = false) :
    bsdMatch (encodeBSD S T F opts) = some (S, T, joinCS (F :: opts)) := by
  have hstrip : stripNL (encodeBSD S T F opts) = encodeBSD S T F opts := by
    apply stripNL_ne_newline
    show (S ++ " on ".data ++ T ++ " (".data ++
      joinCS (F :: opts) ++ [')']).getLast? ≠ some '\n'
    rw [List.getLast?_concat]
    decide
  obtain ⟨l', hl⟩ := splitsOn_concat_last ' ' "on ".data S
    (T ++ " (".data ++ (joinCS (F :: opts) ++ [')'])) hHo
  have hl' : splitsOn " on ".data
      ((S ++ " on ".data) ++
        (T ++ " (".data ++ (joinCS (F :: opts) ++ [')']))) =
      l' ++ [(S, T ++ " (".data ++ (joinCS (F :: opts) ++ [')']))] := hl
  have hline : encodeBSD S T F opts =
      (S ++ " on ".data) ++
        (T ++ " (".data ++ (joinCS (F :: opts) ++ [')'])) := by
    simp [encodeBSD, List.append_assoc]
  unfold bsdMatch
  rw [hstrip, hline, hl']
  rw [List.reverse_concat, List.findSome?_cons]
  have hTB := matchTailBSD_encode T (joinCS (F :: opts)) hT hTn hPn hHp
  simp at hTB
  simp [hS, hSn, hTB]





/-- C2: for every well-formed Linux-grammar line and well-formed BSD-grammar
line (well-formedness per the section-4.1 grammars together with the
section-9 anchor-token caveat), `process_mount_line` recovers `source`,
`target`, `filesystem_type` and `options` exactly as encoded, with options
joined by and re-split on comma-space; re-serialising the four recovered
fields therefore reproduces the same line, so re-parsing yields the same
Mount Record, and for BSD lines the filesystem type is the first
comma-separated token inside the parentheses. -/
theorem c2_parse_roundtrip (S T F : List Char) (opts : List (List Char))
    (S2 T2 F2 : List Char) (opts2 : List (List Char))
    (hL : wfLinuxLine S T F opts) (hB : wfBSDLine S2 T2 F2 opts2) :
    LinuxMount.processMountLine (encodeLinux S T F opts) =
      some ⟨S, T, F, opts⟩ ∧
    BSDMount.processMountLine (encodeBSD S2 T2 F2 opts2) =
      some ⟨S2, T2, F2, opts2⟩ ∧
    (splitCS (joinCS (F2 :: opts2))).headD [] = F2 := by
  obtain ⟨hS, hT, hF, hopts, hSn, hTn, hFn, helts, hHo, hHt, hHp⟩ := hL
  obtain ⟨hS2, hT2, hS2n, hT2n, helts2, hHo2, hHp2⟩ := hB
  have hOn : '\n' ∉ joinCS opts :=
    nl_not_mem_joinCS opts (fun o ho => (helts o ho).1)
  have hPn : '\n' ∉ joinCS (F2 :: opts2) :=
    nl_not_mem_joinCS _ (fun o ho => (helts2 o ho).1)
  have hLm := linuxMatch_encodeLinux S T F opts hS hSn hT hTn hF hFn hOn hHo hHt hHp
  have hBm := bsdMatch_encodeBSD S2 T2 F2 opts2 hS2 hS2n hT2 hT2n hPn hHo2 hHp2
  have hsplit : splitCS (joinCS opts) = opts :=
    splitCS_joinCS opts hopts (fun o ho => (helts o ho).2)
  have hsplit2 : splitCS (joinCS (F2 :: opts2)) = F2 :: opts2 :=
    splitCS_joinCS _ (by simp) (fun o ho => (helts2 o ho).2)
  refine ⟨?_, ?_, ?_⟩
  · unfold LinuxMount.processMountLine
    rw [hLm]
    show some (⟨S, T, F, splitCS (joinCS opts)⟩ : MountDetail) =
      some ⟨S, T, F, opts⟩
    rw [hsplit]
  · unfold BSDMount.processMountLine
    rw [hBm]
    show some (⟨S2, T2, (splitCS (joinCS (F2 :: opts2))).headD [],
      (splitCS (joinCS (F2 :: opts2))).tail⟩ : MountDetail) =
      some ⟨S2, T2, F2, opts2⟩
    rw [hsplit2]
    rfl
  · rw [hsplit2]
    rfl






/-- C2 witness: the theorem applied to a concrete Linux line
`/dev/sda1 on / type ext4 (rw, relatime)` and a concrete BSD line
`/dev/disk1s1 on / (apfs, local, journaled)`. -/
theorem c2_parse_roundtrip_witness :
    LinuxMount.processMountLine (encodeLinux "/dev/sda1".data "/".data
        "ext4".data ["rw".data, "relatime".data]) =
      some ⟨"/dev/sda1".data, "/".data, "ext4".data,
        ["rw".data, "relatime".data]⟩ ∧
    BSDMount.processMountLine (encodeBSD "/dev/disk1s1".data "/".data
        "apfs".data ["local".data, "journaled".data]) =
      some ⟨"/dev/disk1s1".data, "/".data, "apfs".data,
        ["local".data, "journaled".data]⟩ ∧
    (splitCS (joinCS ("apfs".data ::
        ["local".data, "journaled".data]))).headD [] = "apfs".data :=
  c2_parse_roundtrip "/dev/sda1".data "/".data "ext4".data
    ["rw".data, "relatime".data] "/dev/disk1s1".data "/".data "apfs".data
    ["local".data, "journaled".data] (by decide) (by decide)

theorem findSome?_isSome_iff {α β : Type} (f : α → Option β) (l : List α) :
    (l.findSome? f).isSome = true ↔ ∃ x ∈ l, (f x).isSome = true := by
  induction l with
  | nil => simp [List.findSome?]
  | cons a as ih =>
    rw [List.findSome?_cons]
    cases hfa : f a with
    | some b => simp [hfa]
    | none => simp [hfa, ih]

theorem matchParenTail_eq_some_iff (r d : List Char) :
    matchParenTail r = some d ↔ r = d ++ [')'] ∧ '\n' ∉ d := by
  constructor
  · intro h
    unfold matchParenTail at h
    by_cases hc : r.getLast? = some ')' ∧ '\n' ∉ r.dropLast
    · rw [if_pos hc] at h
      injection h with h
      subst h
      refine ⟨?_, hc.2⟩
      have hne : r ≠ [] := by
        intro he
        rw [he] at hc
        simp at hc
      have h1 := List.dropLast_append_getLast hne
      have h2 := List.getLast?_eq_getLast r hne
      have h3 : r.getLast hne = ')' := by
        have h4 := hc.1
        rw [h2] at h4
        injection h4
      rw [← h3]
      exact h1.symm
    · rw [if_neg hc] at h
      exact absurd h (by simp)
  · rintro ⟨rfl, hd⟩
    exact matchParenTail_concat d hd

theorem matchTailBSD_isSome_iff (r : List Char) :
    (matchTailBSD r).isSome = true ↔
      ∃ b d, r = b ++ " (".data ++ d ++ [')'] ∧ b ≠ [] ∧ '\n' ∉ b ∧
        '\n' ∉ d := by
  unfold matchTailBSD
  rw [findSome?_isSome_iff]
  constructor
  · rintro ⟨⟨b, r2⟩, hmem, hsome⟩
    rw [List.mem_reverse] at hmem
    have hr := splitsOn_sound _ _ _ _ hmem
    dsimp only at hsome
    by_cases hb : b = [] ∨ '\n' ∈ b
    · rw [if_pos hb] at hsome
      simp at hsome
    · rw [if_neg hb] at hsome
      rw [Option.isSome_map'] at hsome
      obtain ⟨d, hd⟩ := Option.isSome_iff_exists.mp hsome
      obtain ⟨hr2, hdn⟩ := (matchParenTail_eq_some_iff r2 d).mp hd
      push_neg at hb
      refine ⟨b, d, ?_, hb.1, hb.2, hdn⟩
      rw [hr, hr2]
      simp [List.append_assoc]
  · rintro ⟨b, d, hr, hb, hbn, hdn⟩
    refine ⟨(b, d ++ [')']), ?_, ?_⟩
    · rw [List.mem_reverse]
      have heq : r = (b ++ " (".data) ++ (d ++ [')']) := by
        rw [hr]
        simp [List.append_assoc]
      rw [heq]
      exact splitsOn_complete ' ' "(".data b (d ++ [')'])
    · have hcond : ¬(b = [] ∨ '\n' ∈ b) := by
        rintro (h | h)
        exacts [hb h, hbn h]
      dsimp only
      rw [if_neg hcond, Option.isSome_map', matchParenTail_concat d hdn]
      rfl

theorem matchTailLinux_isSome_iff (r : List Char) :
    (matchTailLinux r).isSome = true ↔
      ∃ b c d, r = b ++ " type ".data ++ c ++ " (".data ++ d ++ [')'] ∧
        b ≠ [] ∧ '\n' ∉ b ∧ c ≠ [] ∧ '\n' ∉ c ∧ '\n' ∉ d := by
  unfold matchTailLinux
  rw [findSome?_isSome_iff]
  constructor
  · rintro ⟨⟨b, r2⟩, hmem, hsome⟩
    rw [List.mem_reverse] at hmem
    have hr := splitsOn_sound _ _ _ _ hmem
    dsimp only at hsome
    by_cases hb : b = [] ∨ '\n' ∈ b
    · rw [if_pos hb] at hsome
      simp at hsome
    · rw [if_neg hb] at hsome
      rw [Option.isSome_map'] at hsome
      obtain ⟨c, d, hr2, hc, hcn, hdn⟩ := (matchTailBSD_isSome_iff r2).mp hsome
      push_neg at hb
      refine ⟨b, c, d, ?_, hb.1, hb.2, hc, hcn, hdn⟩
      rw [hr, hr2]
      simp [List.append_assoc]
  · rintro ⟨b, c, d, hr, hb, hbn, hc, hcn, hdn⟩
    refine ⟨(b, c ++ " (".data ++ d ++ [')']), ?_, ?_⟩
    · rw [List.mem_reverse]
      have heq : r = (b ++ " type ".data) ++ (c ++ " (".data ++ d ++ [')']) := by
        rw [hr]
        simp [List.append_assoc]
      rw [heq]
      exact splitsOn_complete ' ' "type ".data b (c ++ " (".data ++ d ++ [')'])
    · have hcond : ¬(b = [] ∨ '\n' ∈ b) := by
        rintro (h | h)
        exacts [hb h, hbn h]
      dsimp only
      rw [if_neg hcond, Option.isSome_map']
      apply (matchTailBSD_isSome_iff _).mpr
      exact ⟨c, d, rfl, hc, hcn, hdn⟩

theorem linuxMatch_isSome_iff (t : List Char) :
    (linuxMatch t).isSome = true ↔ LinuxShape t := by
  unfold linuxMatch LinuxShape
  rw [findSome?_isSome_iff]
  constructor
  · rintro ⟨⟨a, r⟩, hmem, hsome⟩
    rw [List.mem_reverse] at hmem
    have hr := splitsOn_sound _ _ _ _ hmem
    dsimp only at hsome
    by_cases ha : a = [] ∨ '\n' ∈ a
    · rw [if_pos ha] at hsome
      simp at hsome
    · rw [if_neg ha] at hsome
      rw [Option.isSome_map'] at hsome
      obtain ⟨T, F, O, hrdec, hT, hTn, hF, hFn, hOn⟩ :=
        (matchTailLinux_isSome_iff r).mp hsome
      push_neg at ha
      refine ⟨a, T, F, O, ?_, ha.1, hT, hF, ha.2, hTn, hFn, hOn⟩
      rw [hr, hrdec]
      simp [List.append_assoc]
  · rintro ⟨S, T, F, O, hdec, hS, hT, hF, hSn, hTn, hFn, hOn⟩
    refine ⟨(S, T ++ " type ".data ++ F ++ " (".data ++ O ++ [')']), ?_, ?_⟩
    · rw [List.mem_reverse]
      have heq : stripNL t =
          (S ++ " on ".data) ++
            (T ++ " type ".data ++ F ++ " (".data ++ O ++ [')']) := by
        rw [hdec]
        simp [List.append_assoc]
      rw [heq]
      exact splitsOn_complete ' ' "on ".data S _
    · have hcond : ¬(S = [] ∨ '\n' ∈ S) := by
        rintro (h | h)
        exacts [hS h, hSn h]
      dsimp only
      rw [if_neg hcond, Option.isSome_map']
      apply (matchTailLinux_isSome_iff _).mpr
      exact ⟨T, F, O, rfl, hT, hTn, hF, hFn, hOn⟩

theorem bsdMatch_isSome_iff (t : List Char) :
    (bsdMatch t).isSome = true ↔ BSDShape t := by
  unfold bsdMatch BSDShape
  rw [findSome?_isSome_iff]
  constructor
  · rintro ⟨⟨a, r⟩, hmem, hsome⟩
    rw [List.mem_reverse] at hmem
    have hr := splitsOn_sound _ _ _ _ hmem
    dsimp only at hsome
    by_cases ha : a = [] ∨ '\n' ∈ a
    · rw [if_pos ha] at hsome
      simp at hsome
    · rw [if_neg ha] at hsome
      rw [Option.isSome_map'] at hsome
      obtain ⟨T, O, hrdec, hT, hTn, hOn⟩ := (matchTailBSD_isSome_iff r).mp hsome
      push_neg at ha
      refine ⟨a, T, O, ?_, ha.1, hT, ha.2, hTn, hOn⟩
      rw [hr, hrdec]
      simp [List.append_assoc]
  · rintro ⟨S, T, O, hdec, hS, hT, hSn, hTn, hOn⟩
    refine ⟨(S, T ++ " (".data ++ O ++ [')']), ?_, ?_⟩
    · rw [List.mem_reverse]
      have heq : stripNL t =
          (S ++ " on ".data) ++ (T ++ " (".data ++ O ++ [')']) := by
        rw [hdec]
        simp [List.append_assoc]
      rw [heq]
      exact splitsOn_complete ' ' "on ".data S _
    · have hcond : ¬(S = [] ∨ '\n' ∈ S) := by
        rintro (h | h)
        exacts [hS h, hSn h]
      dsimp only
      rw [if_neg hcond, Option.isSome_map']
      apply (matchTailBSD_isSome_iff _).mpr
      exact ⟨T, O, rfl, hT, hTn, hOn⟩

/-- C10: each platform parser is total — embedded as a total function that
returns the empty record (`none`) instead of raising — and it returns the
empty record exactly when the input line fails to match the variant's
grammar, characterised declaratively by the greedy decomposition shape. -/
theorem c10_parse_total (t : List Char) :
    (LinuxMount.processMountLine t = none ↔ ¬ LinuxShape t) ∧
    (BSDMount.processMountLine t = none ↔ ¬ BSDShape t) := by
  constructor
  · rw [← linuxMatch_isSome_iff]
    unfold LinuxMount.processMountLine
    cases h : linuxMatch t with
    | some g => simp [h]
    | none => simp [h]
  · rw [← bsdMatch_isSome_iff]
    unfold BSDMount.processMountLine
    cases h : bsdMatch t with
    | some g => simp [h]
    | none => simp [h]
